import Mathlib

/-!
Shallow embedding of the celery dispatch loop of
`execution_model/celery_instance/core_execution_loop_copy.py`.

The loop `core_celery_execution_loop` is a single-threaded polling loop
driving an external tracker (`active_execution`), an external task queue
(celery, reached through `step_execution_fn` and `AsyncResult` handles)
and a per-run context.  The loop body is translated statement by
statement; every observable call the loop makes (yielded engine events,
tracker feeds, revoke calls, adapter submissions, the tick sleep) is
recorded in an explicit action trace.  The external collaborators are
modelled as per-tick oracles: the loop only sees the values they return,
so the embedding quantifies over those values.
-/

namespace CelerySim

/-- A step of the execution plan: a unique key plus free-form string
tags (the python `step.tags` dict is an association list here). -/
structure Step where
  key : String
  tags : List (String × String)
deriving Repr, DecidableEq

/-- The run-scoped context: carries the run-level tags consulted by
`_get_run_priority` (`context.has_tag` / `context.get_tag`). -/
structure RunContext where
  tags : List (String × String)
deriving Repr, DecidableEq

def DAGSTER_CELERY_STEP_PRIORITY_TAG : String := "dagster-celery/priority"

def DAGSTER_CELERY_RUN_PRIORITY_TAG : String := "dagster-celery/run_priority"

def DAGSTER_CELERY_QUEUE_TAG : String := "dagster-celery/queue"

def TICK_SECONDS : Nat := 1

/-- Modelled from the spec: the default priority value is configuration
(`celery_instance.dagster_celery_config.task_default_priority`, a module
that is not part of the sources); section 4.2 of the design gives the
step-level priority tag the default 0. -/
def task_default_priority : Int := 0

/-- Modelled from the spec: the default queue name is configuration
(`celery_instance.dagster_celery_config.task_default_queue`, not part of
the sources); the concrete string is immaterial to every property. -/
def task_default_queue : String := "dagster"

/-- Python `tags.get(k)` on the association list. -/
def tagsGet (tags : List (String × String)) (k : String) : Option String :=
  (tags.find? (fun p => p.1 == k)).map (fun p => p.2)

/-- Value of a decimal digit character. -/
def digitVal (c : Char) : Option Nat :=
  if c.isDigit then some (c.toNat - 48) else none

/-- All-digit parse of a character list; `none` when empty or when any
character is not a decimal digit. -/
def digitsToNat (cs : List Char) : Option Nat :=
  if cs.isEmpty then none
  else cs.foldlM (fun acc c => (digitVal c).map (fun d => acc * 10 + d)) 0

/-- Strip leading and trailing whitespace from a character list. -/
def trimChars (cs : List Char) : List Char :=
  ((cs.dropWhile Char.isWhitespace).reverse.dropWhile Char.isWhitespace).reverse

/-- Model of python `int(s)` on a string: optional surrounding
whitespace, an optional sign, then decimal digits; `none` models the
`ValueError` raise on anything else. -/
def pyInt? (s : String) : Option Int :=
  match trimChars s.toList with
  | '-' :: cs => (digitsToNat cs).map (fun n => -(n : Int))
  | '+' :: cs => (digitsToNat cs).map (fun n => (n : Int))
  | cs => (digitsToNat cs).map (fun n => (n : Int))

/-- `_get_run_priority(context)`: 0 when the run-priority tag is absent,
and 0 again when `int()` on the tag value raises `ValueError` (the
`try`/`except ValueError` guard); total, mirroring "never raises". -/
def _get_run_priority (ctx : RunContext) : Int :=
  match tagsGet ctx.tags DAGSTER_CELERY_RUN_PRIORITY_TAG with
  | none => 0
  | some v => (pyInt? v).getD 0

/-- `int(step.tags.get(DAGSTER_CELERY_STEP_PRIORITY_TAG, task_default_priority))`:
the step-level tag parsed without any guard, so `none` models the
uncaught `ValueError` on an unparseable tag value. -/
def stepPriorityInt (st : Step) : Option Int :=
  match tagsGet st.tags DAGSTER_CELERY_STEP_PRIORITY_TAG with
  | none => some task_default_priority
  | some v => pyInt? v

/-- The `priority_for_step` lambda: `-1 * int(step tag) + -1 * run priority`;
`none` models the propagated `ValueError`. -/
def priority_for_step (ctx : RunContext) (st : Step) : Option Int :=
  (stepPriorityInt st).map (fun p => -1 * p + -1 * _get_run_priority ctx)

/-- `_get_step_priority(context, step)`: run priority plus step priority,
`none` models the propagated `ValueError` of the step-tag `int()`. -/
def _get_step_priority (ctx : RunContext) (st : Step) : Option Int :=
  (stepPriorityInt st).map (fun p => _get_run_priority ctx + p)

/-- `execution_plan.get_step_by_key(k)` over the plan's step list. -/
def get_step_by_key (plan : List Step) (k : String) : Option Step :=
  plan.find? (fun st => st.key == k)

/-- The `priority_for_key` lambda: look the key up in the plan and apply
`priority_for_step`. -/
def priority_for_key (ctx : RunContext) (plan : List Step) (k : String) : Option Int :=
  (get_step_by_key plan k).bind (priority_for_step ctx)

/-- Python dict membership `k in d` for the association-list dicts. -/
def dictHasKey (l : List (String × α)) (k : String) : Bool :=
  l.any (fun p => p.1 == k)

/-- Python dict assignment `d[k] = v`: overwrite in place when the key
exists (python dicts keep the original insertion position), append
otherwise. -/
def dictSet (l : List (String × α)) (k : String) (v : α) : List (String × α) :=
  if dictHasKey l k then l.map (fun p => if p.1 == k then (k, v) else p)
  else l ++ [(k, v)]

/-- Python dict deletion `del d[k]`. -/
def dictRemove (l : List (String × α)) (k : String) : List (String × α) :=
  l.filter (fun p => p.1 != k)

/-- Stable insertion of `x` into a list sorted on the integer key `f`:
`x` goes before the first element of strictly larger or equal key. -/
def insertOn (f : α → Int) (x : α) : List α → List α
  | [] => [x]
  | y :: ys => if f x ≤ f y then x :: y :: ys else y :: insertOn f x ys

/-- Stable sort on the integer key `f`, ascending — the model of python
`sorted(l, key=f)`. -/
def sortOn (f : α → Int) : List α → List α
  | [] => []
  | x :: xs => insertOn f x (sortOn f xs)

/-- Outcome of `result.get()` on a ready celery `AsyncResult`: a normal
list of serialized step events, a `TaskRevokedError` raise, or any other
exception (carried as a serializable error description, the model of
`serializable_error_info_from_exc_info`). -/
inductive FetchOutcome where
  | ok (stepEvents : List String)
  | revoked
  | failed (err : String)
deriving Repr, DecidableEq

/-- The engine/step events the loop yields to its caller. -/
inductive EngineEvent where
  | terminationNotice (inFlightKeys : List String)
  | revokedNotice (stepKey : String)
  | submittingNotice (stepKey : String) (queue : String)
  | submissionErrorNotice (err : String)
  | stepEvent (payload : String)
  | planEvent (payload : String)
deriving Repr, DecidableEq

/-- Observable calls of one run, in program order.  `handleEvent k p`
records `active_execution.handle_event` on payload `p`, fed while the
loop processed the handle of step `k`. -/
inductive Action where
  | yieldEv (e : EngineEvent)
  | markInterrupted
  | revokeHandle (h : Nat)
  | handleEvent (srcKey : String) (payload : String)
  | verifyComplete (stepKey : String)
  | recordError (stepKey : String) (err : String)
  | adapterSubmit (stepKey : String)
  | sleep
deriving Repr, DecidableEq

/-- The answers the external collaborators give during one loop
iteration: the tracker (`is_complete` at the loop-condition check,
`check_for_interrupts`, `plan_events_iterator`, `get_steps_to_execute`),
the celery handles (`ready()`, `get()`), and the adapter
(`step_execution_fn`, returning a fresh handle id or raising). -/
structure TickOracle where
  isCompleteBefore : Bool
  interrupt : Bool
  ready : Nat → Bool
  fetch : Nat → FetchOutcome
  planEvents : List String
  readySteps : List Step
  submit : Step → Except String Nat

/-- The loop's own mutable state: `step_results`, `step_errors` and the
`stopping` flag. -/
structure LoopState where
  stepResults : List (String × Nat)
  stepErrors : List (String × String)
  stopping : Bool
deriving Repr, DecidableEq

/-- Result of a phase or of a whole tick: normal continuation with a
value, or an exception propagating out of the generator; both carry the
actions performed up to that point. -/
inductive TickOut (α : Type) where
  | ok (a : α) (tr : List Action)
  | fatal (err : String) (tr : List Action)
deriving Repr

/-- Prepend already-performed actions to a phase result. -/
def TickOut.withPre (tr : List Action) : TickOut α → TickOut α
  | .ok a tr2 => .ok a (tr ++ tr2)
  | .fatal e tr2 => .fatal e (tr ++ tr2)

/-- The trace of a phase result. -/
def TickOut.trace : TickOut α → List Action
  | .ok _ tr => tr
  | .fatal _ tr => tr

/-- State effect of the interrupt check at the top of the tick: when
`check_for_interrupts()` is true the loop sets `stopping` — there is no
"already stopping" guard in the source. -/
def interruptState (o : TickOracle) (s : LoopState) : LoopState :=
  if o.interrupt then { s with stopping := true } else s

/-- Actions of the interrupt check: the cancellation notice (listing the
in-flight keys), `mark_interrupted`, then `revoke()` on every handle in
`step_results` — again with no guard on an earlier interrupt. -/
def interruptTrace (o : TickOracle) (s : LoopState) : List Action :=
  if o.interrupt then
    Action.yieldEv (.terminationNotice (s.stepResults.map (fun p => p.1)))
      :: Action.markInterrupted
      :: s.stepResults.map (fun p => Action.revokeHandle p.2)
  else []

/-- Per-event actions of `for step_event in step_events: yield event;
active_execution.handle_event(event)` for the handle of step `k`. -/
def eventsTrace (k : String) : List String → List Action
  | [] => []
  | p :: rest => Action.yieldEv (.stepEvent p) :: Action.handleEvent k p :: eventsTrace k rest

/-- The scan over the (already priority-sorted) `step_results` items:
ready handles are fetched; a normal outcome feeds its events to the
tracker, `TaskRevokedError` yields a revocation notice (after the
`get_step_by_key` lookup, whose failure would propagate), any other
exception is recorded in `step_errors`; every ready handle is collected
in `results_to_pop`. -/
def scanGo (plan : List Step) (o : TickOracle) :
    List (String × Nat) → List (String × String) → List String →
    TickOut (List (String × String) × List String)
  | [], errs, pops => .ok (errs, pops) []
  | (k, h) :: rest, errs, pops =>
    if o.ready h then
      match o.fetch h with
      | .ok evs =>
        (scanGo plan o rest errs (pops ++ [k])).withPre (eventsTrace k evs)
      | .revoked =>
        match get_step_by_key plan k with
        | none => .fatal "KeyError" []
        | some _ =>
          (scanGo plan o rest errs (pops ++ [k])).withPre
            [Action.yieldEv (.revokedNotice k)]
      | .failed e =>
        (scanGo plan o rest (dictSet errs k e) (pops ++ [k])).withPre
          [Action.recordError k e]
    else scanGo plan o rest errs pops

/-- `sorted(step_results.items(), key=lambda x: priority_for_key(x[0]))`
requires every in-flight key's priority to be computable. -/
def scanKeysOk (ctx : RunContext) (plan : List Step) (sr : List (String × Nat)) : Bool :=
  sr.all (fun p => (priority_for_key ctx plan p.1).isSome)

/-- The priority-sorted view of the in-flight handles. -/
def scanSorted (ctx : RunContext) (plan : List Step) (sr : List (String × Nat)) :
    List (String × Nat) :=
  sortOn (fun p => (priority_for_key ctx plan p.1).getD 0) sr

/-- The pop loop: for each collected key still in `step_results`, delete
it and call `verify_complete`. -/
def popGo (pops : List String) (sr : List (String × Nat)) :
    List (String × Nat) × List Action :=
  match pops with
  | [] => (sr, [])
  | k :: rest =>
    if dictHasKey sr k then
      let r := popGo rest (dictRemove sr k)
      (r.1, Action.verifyComplete k :: r.2)
    else popGo rest sr

/-- The whole result-scan phase of a tick (sort, fetch loop, pop loop);
an unparseable priority of an in-flight step makes `sorted` raise the
`ValueError` before anything is scanned. -/
def scanPhase (ctx : RunContext) (plan : List Step) (o : TickOracle) (s : LoopState) :
    TickOut LoopState :=
  if scanKeysOk ctx plan s.stepResults then
    match scanGo plan o (scanSorted ctx plan s.stepResults) s.stepErrors [] with
    | .fatal e tr => .fatal e tr
    | .ok (errs, pops) tr =>
      .ok { s with stepErrors := errs, stepResults := (popGo pops s.stepResults).1 }
        (tr ++ (popGo pops s.stepResults).2)
  else .fatal "ValueError" []

/-- `if stopping or step_errors: continue` — the submission-skip test. -/
def skipCondition (s : LoopState) : Bool :=
  s.stopping || !s.stepErrors.isEmpty

/-- The submission loop over the ready steps: yield the submitting
notice, compute `_get_step_priority` (whose `ValueError` would be caught
by the surrounding `except`), call `step_execution_fn`; a raise yields
the fatal engine-error notice and re-raises, otherwise the handle is
stored in `step_results`. -/
def submitGo (ctx : RunContext) (o : TickOracle) :
    List Step → List (String × Nat) → TickOut (List (String × Nat))
  | [], sr => .ok sr []
  | st :: rest, sr =>
    let q := (tagsGet st.tags DAGSTER_CELERY_QUEUE_TAG).getD task_default_queue
    match _get_step_priority ctx st with
    | none =>
      .fatal "ValueError"
        [Action.yieldEv (.submittingNotice st.key q),
         Action.yieldEv (.submissionErrorNotice "ValueError")]
    | some _ =>
      match o.submit st with
      | .error e =>
        .fatal e
          [Action.yieldEv (.submittingNotice st.key q),
           Action.adapterSubmit st.key,
           Action.yieldEv (.submissionErrorNotice e)]
      | .ok h =>
        (submitGo ctx o rest (dictSet sr st.key h)).withPre
          [Action.yieldEv (.submittingNotice st.key q), Action.adapterSubmit st.key]

/-- `active_execution.get_steps_to_execute()` sorts the ready steps with
the `sort_key_fn` handed to `execution_plan.start`; every ready step's
priority must be computable or `sorted` raises the `ValueError`. -/
def readyKeysOk (ctx : RunContext) (steps : List Step) : Bool :=
  steps.all (fun st => (priority_for_step ctx st).isSome)

/-- Modelled from the spec: the Active Execution Tracker (dagster's
`ActiveExecution`, not part of the sources) hands the ready steps out
ordered by the `sort_key_fn` the loop passes to `execution_plan.start`,
namely `priority_for_step` — ascending sort key, stable. -/
def submissionOrder (ctx : RunContext) (steps : List Step) : List Step :=
  sortOn (fun st => (priority_for_step ctx st).getD 0) steps

/-- The whole submission phase of a tick. -/
def submitPhase (ctx : RunContext) (o : TickOracle) (s : LoopState) : TickOut LoopState :=
  if readyKeysOk ctx o.readySteps then
    match submitGo ctx o (submissionOrder ctx o.readySteps) s.stepResults with
    | .fatal e tr => .fatal e tr
    | .ok sr tr => .ok { s with stepResults := sr } tr
  else .fatal "ValueError" []

/-- One iteration of the `while` body: interrupt check, result scan,
plan-events drain, then either the `continue` (when stopping or any step
error is recorded — skipping both submission and the sleep) or the
submission phase followed by `time.sleep(TICK_SECONDS)`. -/
def runTick (ctx : RunContext) (plan : List Step) (o : TickOracle) (s : LoopState) :
    TickOut LoopState :=
  match scanPhase ctx plan o (interruptState o s) with
  | .fatal e tr => .fatal e (interruptTrace o s ++ tr)
  | .ok s2 tr2 =>
    if skipCondition s2 then
      .ok s2 (interruptTrace o s ++ tr2 ++
        o.planEvents.map (fun p => Action.yieldEv (.planEvent p)))
    else
      match submitPhase ctx o s2 with
      | .fatal e tr4 =>
        .fatal e (interruptTrace o s ++ tr2 ++
          o.planEvents.map (fun p => Action.yieldEv (.planEvent p)) ++ tr4)
      | .ok s3 tr4 =>
        .ok s3 (interruptTrace o s ++ tr2 ++
          o.planEvents.map (fun p => Action.yieldEv (.planEvent p)) ++ tr4 ++ [Action.sleep])

/-- The `while` guard:
`(not active_execution.is_complete and not stopping) or step_results`. -/
def loopContinues (isComplete stopping : Bool) (stepResults : List (String × Nat)) : Bool :=
  (!isComplete && !stopping) || !stepResults.isEmpty

/-- Outcome of a whole run: normal exit, the aggregate
`DagsterSubprocessError` carrying every recorded step error, a fatal
exception propagating out of the loop, or exhaustion of the step fuel
(the loop itself may not terminate). -/
inductive RunResult where
  | completed (tr : List Action)
  | aggregateError (errors : List (String × String)) (tr : List Action)
  | fatalError (err : String) (tr : List Action)
  | outOfFuel (tr : List Action)
deriving Repr, DecidableEq

/-- Prepend already-performed actions to a run result. -/
def RunResult.withPre (tr : List Action) : RunResult → RunResult
  | .completed tr2 => .completed (tr ++ tr2)
  | .aggregateError errs tr2 => .aggregateError errs (tr ++ tr2)
  | .fatalError e tr2 => .fatalError e (tr ++ tr2)
  | .outOfFuel tr2 => .outOfFuel (tr ++ tr2)

/-- The trace of a run result. -/
def RunResult.trace : RunResult → List Action
  | .completed tr => tr
  | .aggregateError _ tr => tr
  | .fatalError _ tr => tr
  | .outOfFuel tr => tr

/-- The loop from iteration `i` in state `s`, with `fuel` remaining
iterations: test the guard, run a tick, recurse; on exit raise the
aggregate error iff any step error was recorded. -/
def runLoopAux (ctx : RunContext) (plan : List Step) (env : Nat → TickOracle) :
    Nat → Nat → LoopState → RunResult
  | 0, _, _ => .outOfFuel []
  | fuel + 1, i, s =>
    if loopContinues (env i).isCompleteBefore s.stopping s.stepResults then
      match runTick ctx plan (env i) s with
      | .fatal e tr => .fatalError e tr
      | .ok s2 tr => (runLoopAux ctx plan env fuel (i + 1) s2).withPre tr
    else
      if s.stepErrors.isEmpty then .completed []
      else .aggregateError s.stepErrors []

/-- The loop starts with empty `step_results`, empty `step_errors` and
`stopping = False`. -/
def initState : LoopState := ⟨[], [], false⟩

/-- A whole run of `core_celery_execution_loop` under the oracle `env`,
observed for at most `fuel` iterations. -/
def runLoop (ctx : RunContext) (plan : List Step) (env : Nat → TickOracle)
    (fuel : Nat) : RunResult :=
  runLoopAux ctx plan env fuel 0 initState

/-- Number of adapter submissions (`step_execution_fn` calls) in a trace. -/
def countSubmits (tr : List Action) : Nat :=
  tr.countP (fun a => match a with | .adapterSubmit _ => true | _ => false)

/-- Number of `revoke()` calls on handle `h` in a trace. -/
def countRevoke (h : Nat) (tr : List Action) : Nat :=
  tr.countP (fun a => a == Action.revokeHandle h)

/-- Number of step-error recordings keyed by `k` in a trace. -/
def countRecordsFor (k : String) (tr : List Action) : Nat :=
  tr.countP (fun a => match a with | .recordError k2 _ => k2 == k | _ => false)

/-- The empty run context (no run-level tags). -/
def ctxNone : RunContext := ⟨[]⟩

/-- A run context whose run-priority tag does not parse as an integer. -/
def ctxBadRun : RunContext := ⟨[(DAGSTER_CELERY_RUN_PRIORITY_TAG, "not-a-number")]⟩

/-- Concrete steps with step-priority tags 5, 1 and 10. -/
def stP5 : Step := ⟨"s5", [(DAGSTER_CELERY_STEP_PRIORITY_TAG, "5")]⟩

def stP1 : Step := ⟨"s1", [(DAGSTER_CELERY_STEP_PRIORITY_TAG, "1")]⟩

def stP10 : Step := ⟨"s10", [(DAGSTER_CELERY_STEP_PRIORITY_TAG, "10")]⟩

/-- A concrete step with no tags. -/
def stA : Step := ⟨"a", []⟩

/-- A concrete step whose step-priority tag value is unparseable. -/
def stBad : Step := ⟨"b", [(DAGSTER_CELERY_STEP_PRIORITY_TAG, "low")]⟩

/-- A tick oracle on which nothing happens. -/
def oQuiet : TickOracle :=
  { isCompleteBefore := false, interrupt := false, ready := fun _ => false,
    fetch := fun _ => .revoked, planEvents := [], readySteps := [],
    submit := fun _ => .ok 0 }

/-- Oracle whose only ready handle fetches a remote failure. -/
def oFailFetch : TickOracle :=
  { oQuiet with ready := fun _ => true, fetch := fun _ => .failed "boom" }

/-- Oracle on which every submission raises. -/
def oFailSubmit : TickOracle :=
  { oQuiet with submit := fun _ => .error "broker down" }

/-- Environment: the tracker reports an interrupt on every tick. -/
def envC1 : Nat → TickOracle := fun _ => { oQuiet with interrupt := true }

/-- Environment: step `a` is submitted on tick 0 and its remote
execution fails on tick 1; the tracker then reports complete. -/
def envAgg : Nat → TickOracle
  | 0 => { oQuiet with readySteps := [stA] }
  | 1 => oFailFetch
  | _ => { oQuiet with isCompleteBefore := true }

/-- Environment: step `a` is submitted on tick 0 (handle 7, never
ready), and the tracker reports an interrupt on every later tick. -/
def envC7 : Nat → TickOracle
  | 0 => { oQuiet with readySteps := [stA], submit := fun _ => .ok 7 }
  | _ => { oQuiet with interrupt := true }

/-- Environment: the unparseable-priority step is ready on tick 0. -/
def envBad : Nat → TickOracle := fun _ => { oQuiet with readySteps := [stBad] }

/-! ### Lemmas about the stable sort -/

theorem mem_insertOn {f : α → Int} {x a : α} {l : List α} :
    a ∈ insertOn f x l ↔ a = x ∨ a ∈ l := by
  induction l with
  | nil => simp [insertOn]
  | cons y ys ih =>
    simp only [insertOn]
    split
    · simp [List.mem_cons]
    · simp only [List.mem_cons, ih]
      tauto

theorem pairwise_insertOn {f : α → Int} {x : α} {l : List α}
    (h : l.Pairwise (fun a b => f a ≤ f b)) :
    (insertOn f x l).Pairwise (fun a b => f a ≤ f b) := by
  induction l with
  | nil => simp [insertOn]
  | cons y ys ih =>
    rw [List.pairwise_cons] at h
    obtain ⟨hy, hys⟩ := h
    simp only [insertOn]
    split
    · rename_i hxy
      rw [List.pairwise_cons]
      refine ⟨fun z hz => ?_, List.pairwise_cons.mpr ⟨hy, hys⟩⟩
      rcases List.mem_cons.mp hz with rfl | hz
      · exact hxy
      · exact le_trans hxy (hy z hz)
    · rename_i hxy
      rw [List.pairwise_cons]
      refine ⟨fun z hz => ?_, ih hys⟩
      rcases mem_insertOn.mp hz with rfl | hz
      · exact le_of_not_le hxy
      · exact hy z hz

theorem sortOn_pairwise (f : α → Int) (l : List α) :
    (sortOn f l).Pairwise (fun a b => f a ≤ f b) := by
  induction l with
  | nil => simp [sortOn]
  | cons x xs ih => exact pairwise_insertOn ih

theorem insertOn_perm (f : α → Int) (x : α) (l : List α) :
    (insertOn f x l).Perm (x :: l) := by
  induction l with
  | nil => simp [insertOn]
  | cons y ys ih =>
    simp only [insertOn]
    split
    · exact List.Perm.refl _
    · exact (ih.cons y).trans (List.Perm.swap x y ys)

theorem sortOn_perm (f : α → Int) (l : List α) : (sortOn f l).Perm l := by
  induction l with
  | nil => simp [sortOn]
  | cons x xs ih => exact (insertOn_perm f x (sortOn f xs)).trans (ih.cons x)

/-! ### Lemmas about phase results and traces -/

theorem trace_withPre (tr : List Action) (t : TickOut α) :
    (t.withPre tr).trace = tr ++ t.trace := by
  cases t <;> rfl

theorem withPre_eq_ok {tr : List Action} {t : TickOut α} {a : α} {tr2 : List Action}
    (h : t.withPre tr = .ok a tr2) : ∃ tr3, t = .ok a tr3 ∧ tr2 = tr ++ tr3 := by
  cases t with
  | ok b tr3 =>
    injection h with h1 h2
    exact ⟨tr3, by rw [h1], h2.symm⟩
  | fatal e tr3 => exact TickOut.noConfusion h

theorem withPre_eq_fatal {tr : List Action} {t : TickOut α} {e : String} {tr2 : List Action}
    (h : t.withPre tr = .fatal e tr2) : ∃ tr3, t = .fatal e tr3 ∧ tr2 = tr ++ tr3 := by
  cases t with
  | ok b tr3 => exact TickOut.noConfusion h
  | fatal e2 tr3 =>
    injection h with h1 h2
    exact ⟨tr3, by rw [h1], h2.symm⟩

theorem runWithPre_eq_aggregate {tr : List Action} {r : RunResult} {errs : List (String × String)}
    {tr2 : List Action} (h : r.withPre tr = .aggregateError errs tr2) :
    ∃ tr3, r = .aggregateError errs tr3 ∧ tr2 = tr ++ tr3 := by
  cases r with
  | aggregateError errs2 tr3 =>
    injection h with h1 h2
    exact ⟨tr3, by rw [h1], h2.symm⟩
  | completed tr3 => exact RunResult.noConfusion h
  | fatalError e tr3 => exact RunResult.noConfusion h
  | outOfFuel tr3 => exact RunResult.noConfusion h

/-! ### Lemmas about the dict model -/

theorem self_mem_dictSet (l : List (String × α)) (k : String) (v : α) :
    (k, v) ∈ dictSet l k v := by
  unfold dictSet
  split
  · rename_i hk
    obtain ⟨p, hp, hpk⟩ := List.any_eq_true.mp hk
    exact List.mem_map.mpr ⟨p, hp, by simp [hpk]⟩
  · exact List.mem_append.mpr (Or.inr (List.mem_singleton.mpr rfl))

theorem mem_dictSet_of_ne {l : List (String × α)} {k1 : String} {e : α} {k : String} {v : α}
    (hne : k1 ≠ k) (h : (k1, e) ∈ l) : (k1, e) ∈ dictSet l k v := by
  unfold dictSet
  split
  · refine List.mem_map.mpr ⟨(k1, e), h, ?_⟩
    simp [hne]
  · exact List.mem_append.mpr (Or.inl h)

theorem mem_dictSet_elim {l : List (String × α)} {k1 : String} {e : α} {k : String} {v : α}
    (h : (k1, e) ∈ dictSet l k v) : (k1, e) ∈ l ∨ (k1 = k ∧ e = v) := by
  unfold dictSet at h
  split at h
  · obtain ⟨p, hp, hpe⟩ := List.mem_map.mp h
    by_cases hpk : (p.1 == k) = true
    · rw [if_pos hpk] at hpe
      injection hpe with h1 h2
      exact Or.inr ⟨h1.symm, h2.symm⟩
    · rw [if_neg hpk] at hpe
      rw [hpe] at hp
      exact Or.inl hp
  · rcases List.mem_append.mp h with h | h
    · exact Or.inl h
    · rw [List.mem_singleton] at h
      injection h with h1 h2
      exact Or.inr ⟨h1, h2⟩

theorem exists_mem_dictSet {l : List (String × α)} {k1 k : String} {v : α} :
    (∃ e, (k1, e) ∈ dictSet l k v) ↔ k1 = k ∨ ∃ e, (k1, e) ∈ l := by
  constructor
  · rintro ⟨e, he⟩
    rcases mem_dictSet_elim he with h | ⟨rfl, _⟩
    · exact Or.inr ⟨e, h⟩
    · exact Or.inl rfl
  · rintro (rfl | ⟨e, he⟩)
    · exact ⟨v, self_mem_dictSet l k1 v⟩
    · by_cases hk : k1 = k
      · subst hk
        exact ⟨v, self_mem_dictSet l k1 v⟩
      · exact ⟨e, mem_dictSet_of_ne hk he⟩

/-! ### Shape of the traces each phase can produce -/

theorem mem_interruptTrace {o : TickOracle} {s : LoopState} {a : Action}
    (h : a ∈ interruptTrace o s) :
    (∃ e, a = Action.yieldEv e) ∨ a = Action.markInterrupted ∨
      ∃ hd, a = Action.revokeHandle hd := by
  unfold interruptTrace at h
  split at h
  · simp only [List.mem_cons, List.mem_map] at h
    rcases h with rfl | rfl | ⟨p, _, rfl⟩
    · exact Or.inl ⟨_, rfl⟩
    · exact Or.inr (Or.inl rfl)
    · exact Or.inr (Or.inr ⟨_, rfl⟩)
  · simp at h

theorem mem_eventsTrace {k : String} {a : Action} {evs : List String}
    (h : a ∈ eventsTrace k evs) :
    (∃ p, a = Action.yieldEv (.stepEvent p)) ∨ ∃ p, a = Action.handleEvent k p := by
  induction evs with
  | nil => simp [eventsTrace] at h
  | cons p rest ih =>
    simp only [eventsTrace, List.mem_cons] at h
    rcases h with rfl | rfl | h
    · exact Or.inl ⟨p, rfl⟩
    · exact Or.inr ⟨p, rfl⟩
    · exact ih h

theorem mem_scanGo_trace {plan : List Step} {o : TickOracle} {items : List (String × Nat)}
    {errs : List (String × String)} {pops : List String} {a : Action}
    (h : a ∈ (scanGo plan o items errs pops).trace) :
    (∃ e, a = Action.yieldEv e) ∨ (∃ k p, a = Action.handleEvent k p) ∨
      ∃ k e, a = Action.recordError k e := by
  induction items generalizing errs pops with
  | nil => simp [scanGo, TickOut.trace] at h
  | cons ph rest ih =>
    obtain ⟨k, hd⟩ := ph
    simp only [scanGo] at h
    split at h
    · split at h
      · rw [trace_withPre] at h
        rcases List.mem_append.mp h with h | h
        · rcases mem_eventsTrace h with ⟨p, rfl⟩ | ⟨p, rfl⟩
          · exact Or.inl ⟨_, rfl⟩
          · exact Or.inr (Or.inl ⟨_, _, rfl⟩)
        · exact ih h
      · split at h
        · simp [TickOut.trace] at h
        · rw [trace_withPre] at h
          rcases List.mem_append.mp h with h | h
          · rw [List.mem_singleton] at h
            exact Or.inl ⟨_, h⟩
          · exact ih h
      · rw [trace_withPre] at h
        rcases List.mem_append.mp h with h | h
        · rw [List.mem_singleton] at h
          exact Or.inr (Or.inr ⟨_, _, h⟩)
        · exact ih h
    · exact ih h

theorem mem_popGo_trace {pops : List String} {sr : List (String × Nat)} {a : Action}
    (h : a ∈ (popGo pops sr).2) : ∃ k, a = Action.verifyComplete k := by
  induction pops generalizing sr with
  | nil => simp [popGo] at h
  | cons k rest ih =>
    simp only [popGo] at h
    split at h
    · simp only [List.mem_cons] at h
      rcases h with rfl | h
      · exact ⟨k, rfl⟩
      · exact ih h
    · exact ih h

theorem mem_planTrace {l : List String} {a : Action}
    (h : a ∈ l.map (fun p => Action.yieldEv (.planEvent p))) :
    ∃ e, a = Action.yieldEv e := by
  obtain ⟨p, _, rfl⟩ := List.mem_map.mp h
  exact ⟨_, rfl⟩

theorem mem_scanPhase_trace {ctx : RunContext} {plan : List Step} {o : TickOracle}
    {s : LoopState} {a : Action} (h : a ∈ (scanPhase ctx plan o s).trace) :
    (∃ e, a = Action.yieldEv e) ∨ (∃ k p, a = Action.handleEvent k p) ∨
      (∃ k e, a = Action.recordError k e) ∨ ∃ k, a = Action.verifyComplete k := by
  unfold scanPhase at h
  split at h
  · rename_i hok
    rcases hg : scanGo plan o (scanSorted ctx plan s.stepResults) s.stepErrors [] with
        _ | _
    · rw [hg] at h
      rename_i pr tr
      obtain ⟨errs, pops⟩ := pr
      simp only [TickOut.trace] at h
      rcases List.mem_append.mp h with h | h
      · have : a ∈ (scanGo plan o (scanSorted ctx plan s.stepResults) s.stepErrors []).trace := by
          rw [hg]
          exact h
        rcases mem_scanGo_trace this with h1 | h1 | h1
        · exact Or.inl h1
        · exact Or.inr (Or.inl h1)
        · exact Or.inr (Or.inr (Or.inl h1))
      · obtain ⟨k, rfl⟩ := mem_popGo_trace h
        exact Or.inr (Or.inr (Or.inr ⟨k, rfl⟩))
    · rw [hg] at h
      simp only [TickOut.trace] at h
      have : a ∈ (scanGo plan o (scanSorted ctx plan s.stepResults) s.stepErrors []).trace := by
        rw [hg]
        exact h
      rcases mem_scanGo_trace this with h1 | h1 | h1
      · exact Or.inl h1
      · exact Or.inr (Or.inl h1)
      · exact Or.inr (Or.inr (Or.inl h1))
  · simp [TickOut.trace] at h

theorem mem_submitGo_trace {ctx : RunContext} {o : TickOracle} {steps : List Step}
    {sr : List (String × Nat)} {a : Action}
    (h : a ∈ (submitGo ctx o steps sr).trace) :
    (∃ e, a = Action.yieldEv e) ∨ ∃ k, a = Action.adapterSubmit k := by
  induction steps generalizing sr with
  | nil => simp [submitGo, TickOut.trace] at h
  | cons st rest ih =>
    simp only [submitGo] at h
    split at h
    · simp only [TickOut.trace, List.mem_cons] at h
      rcases h with rfl | rfl | h
      · exact Or.inl ⟨_, rfl⟩
      · exact Or.inl ⟨_, rfl⟩
      · simp at h
    · split at h
      · simp only [TickOut.trace, List.mem_cons] at h
        rcases h with rfl | rfl | rfl | h
        · exact Or.inl ⟨_, rfl⟩
        · exact Or.inr ⟨_, rfl⟩
        · exact Or.inl ⟨_, rfl⟩
        · simp at h
      · rw [trace_withPre] at h
        rcases List.mem_append.mp h with h | h
        · simp only [List.mem_cons] at h
          rcases h with rfl | rfl | h
          · exact Or.inl ⟨_, rfl⟩
          · exact Or.inr ⟨_, rfl⟩
          · simp at h
        · exact ih h

/-! ### Submission counting -/

theorem countSubmits_append (l1 l2 : List Action) :
    countSubmits (l1 ++ l2) = countSubmits l1 + countSubmits l2 :=
  List.countP_append _ _ _

theorem countSubmits_eq_zero {tr : List Action}
    (h : ∀ a ∈ tr, ∀ k, a ≠ Action.adapterSubmit k) : countSubmits tr = 0 := by
  rw [countSubmits, List.countP_eq_zero]
  intro a ha
  cases a with
  | adapterSubmit k => exact fun _ => h _ ha k rfl
  | yieldEv e => simp
  | markInterrupted => simp
  | revokeHandle hd => simp
  | handleEvent k p => simp
  | verifyComplete k => simp
  | recordError k e => simp
  | sleep => simp

theorem countSubmits_interruptTrace (o : TickOracle) (s : LoopState) :
    countSubmits (interruptTrace o s) = 0 :=
  countSubmits_eq_zero fun a ha k => by
    rcases mem_interruptTrace ha with ⟨e, rfl⟩ | rfl | ⟨hd, rfl⟩ <;> simp

theorem countSubmits_scanPhase (ctx : RunContext) (plan : List Step) (o : TickOracle)
    (s : LoopState) : countSubmits (scanPhase ctx plan o s).trace = 0 :=
  countSubmits_eq_zero fun a ha k => by
    rcases mem_scanPhase_trace ha with ⟨e, rfl⟩ | ⟨k2, p, rfl⟩ | ⟨k2, e, rfl⟩ | ⟨k2, rfl⟩ <;>
      simp

theorem countSubmits_planTrace (l : List String) :
    countSubmits (l.map (fun p => Action.yieldEv (.planEvent p))) = 0 :=
  countSubmits_eq_zero fun a ha k => by
    obtain ⟨e, rfl⟩ := mem_planTrace ha
    simp

/-! ### What each phase does to the loop state -/

theorem interruptState_stepErrors (o : TickOracle) (s : LoopState) :
    (interruptState o s).stepErrors = s.stepErrors := by
  unfold interruptState
  split <;> rfl

theorem interruptState_stopping (o : TickOracle) (s : LoopState) :
    (interruptState o s).stopping = (s.stopping || o.interrupt) := by
  unfold interruptState
  split <;> simp_all

theorem scanPhase_ok_stopping {ctx : RunContext} {plan : List Step} {o : TickOracle}
    {s s2 : LoopState} {tr : List Action} (h : scanPhase ctx plan o s = .ok s2 tr) :
    s2.stopping = s.stopping := by
  unfold scanPhase at h
  split at h
  · split at h
    · exact TickOut.noConfusion h
    · injection h with h1 h2
      rw [← h1]
  · exact TickOut.noConfusion h

theorem submitPhase_ok_fields {ctx : RunContext} {o : TickOracle} {s s2 : LoopState}
    {tr : List Action} (h : submitPhase ctx o s = .ok s2 tr) :
    s2.stopping = s.stopping ∧ s2.stepErrors = s.stepErrors := by
  unfold submitPhase at h
  split at h
  · split at h
    · exact TickOut.noConfusion h
    · injection h with h1 h2
      rw [← h1]
      exact ⟨rfl, rfl⟩
  · exact TickOut.noConfusion h

/-- C2: in a tick where, at the submission-skip check, the loop is
draining or at least one step error has been recorded, nothing is
submitted through the adapter — whatever steps the tracker reports
ready.  `s2` is the loop state at the check (after the interrupt check
and the result scan of the same tick). -/
theorem no_submission_when_stopping_or_errors (ctx : RunContext) (plan : List Step)
    (o : TickOracle) (s s2 : LoopState) (tr2 : List Action)
    (hscan : scanPhase ctx plan o (interruptState o s) = .ok s2 tr2)
    (hcond : s2.stopping = true ∨ s2.stepErrors ≠ []) :
    countSubmits (runTick ctx plan o s).trace = 0 := by
  have hskip : skipCondition s2 = true := by
    unfold skipCondition
    rcases hcond with h | h
    · simp [h]
    · have h2 : s2.stepErrors.isEmpty = false := List.isEmpty_eq_false.mpr h
      simp [h2]
  have htr2 : tr2 = (scanPhase ctx plan o (interruptState o s)).trace := by
    rw [hscan]
    rfl
  simp only [runTick, hscan, hskip, if_true, TickOut.trace]
  rw [countSubmits_append, countSubmits_append, countSubmits_interruptTrace,
    countSubmits_planTrace, htr2, countSubmits_scanPhase]

/-- Witness for C2: a draining tick with a ready step submits nothing. -/
theorem no_submission_when_stopping_or_errors_witness :
    countSubmits (runTick ctxNone [] { oQuiet with readySteps := [stA] }
      ⟨[], [], true⟩).trace = 0 :=
  no_submission_when_stopping_or_errors ctxNone [] { oQuiet with readySteps := [stA] }
    ⟨[], [], true⟩ ⟨[], [], true⟩ [] rfl (Or.inl rfl)

/-- C1 (counterexample): the exit condition is NOT "tracker complete and
no interrupt pending and no handles outstanding".  With the tracker
incomplete, the loop stopping after an interrupt, and no handles, the
guard is false — the loop exits although two of the three conditions
fail; the accompanying run (interrupt on tick 0, nothing in flight)
reaches exactly that exit with the tracker never reporting complete. -/
theorem loop_exit_biconditional_fails :
    ¬ (loopContinues false true [] = false ↔
        (false = true ∧ true = false ∧ ([] : List (String × Nat)) = [])) ∧
    runLoop ctxNone [] envC1 2 =
      .completed [Action.yieldEv (.terminationNotice []), Action.markInterrupted] :=
  ⟨by decide, by rfl⟩

/-- C1 (amended): the loop exits exactly when (the tracker reports
complete OR the loop is stopping after a detected interrupt) AND no
pending-result handles remain outstanding; it re-enters the body
whenever that conjunction fails. -/
theorem loop_exit_iff (c stp : Bool) (hs : List (String × Nat)) :
    loopContinues c stp hs = false ↔ ((c = true ∨ stp = true) ∧ hs = []) := by
  cases c <;> cases stp <;> cases hs <;> simp [loopContinues]

/-- C3: within a tick the ready steps are submitted sorted ascending by
the key `priority_for_step` (negated step-level priority tag plus
negated run-level priority tag), hence in descending priority order;
the order is a permutation of the ready set; and for step priority tags
[5, 1, 10] with no run-level tag the submission order is [10, 5, 1]. -/
theorem submission_priority_order :
    (∀ (ctx : RunContext) (ready : List Step),
      (submissionOrder ctx ready).Pairwise
        (fun a b => (priority_for_step ctx a).getD 0 ≤ (priority_for_step ctx b).getD 0) ∧
      (submissionOrder ctx ready).Perm ready) ∧
    submissionOrder ctxNone [stP5, stP1, stP10] = [stP10, stP5, stP1] :=
  ⟨fun ctx ready => ⟨sortOn_pairwise _ ready, sortOn_perm _ ready⟩, by rfl⟩

/-- C7 (counterexample): with handle 7 outstanding and the tracker
reporting an interrupt on two consecutive ticks, the already-revoked
handle is revoked a second time — the revoke-all branch carries no
"not already draining" guard. -/
theorem double_revoke_on_repeated_interrupt :
    (envC7 1).interrupt = true ∧ (envC7 2).interrupt = true ∧
    countRevoke 7 (runLoop ctxNone [stA] envC7 3).trace = 2 :=
  ⟨rfl, rfl, by decide⟩

/-- C7 (amended): the revoke-all branch runs on every tick on which
interrupt detection reports true, whether or not the loop is already
draining: the loop re-emits the cancellation notice, re-marks the
tracker interrupted and calls revoke on every currently outstanding
handle. -/
theorem interrupt_branch_unguarded (o : TickOracle) (s : LoopState)
    (hint : o.interrupt = true) :
    (interruptState o s).stopping = true ∧
    interruptTrace o s =
      Action.yieldEv (.terminationNotice (s.stepResults.map (fun p => p.1)))
        :: Action.markInterrupted
        :: s.stepResults.map (fun p => Action.revokeHandle p.2) := by
  simp [interruptState, interruptTrace, hint]

/-- Witness for C7 (amended): an interrupt while already draining
(`stopping = true`) still revokes the outstanding handle. -/
theorem interrupt_branch_unguarded_witness :
    (interruptState { oQuiet with interrupt := true } ⟨[("a", 7)], [], true⟩).stopping = true ∧
    interruptTrace { oQuiet with interrupt := true } ⟨[("a", 7)], [], true⟩ =
      Action.yieldEv (.terminationNotice (([("a", 7)] : List (String × Nat)).map (fun p => p.1)))
        :: Action.markInterrupted
        :: ([("a", 7)] : List (String × Nat)).map (fun p => Action.revokeHandle p.2) :=
  interrupt_branch_unguarded { oQuiet with interrupt := true } ⟨[("a", 7)], [], true⟩ rfl

/-- C9: the run-level priority resolves to 0 both when the run-priority
tag is absent and when its value does not parse as an integer; the
function is total, the model of "never raises". -/
theorem run_priority_defaults_to_zero (ctx : RunContext) :
    (tagsGet ctx.tags DAGSTER_CELERY_RUN_PRIORITY_TAG = none → _get_run_priority ctx = 0) ∧
    (∀ v, tagsGet ctx.tags DAGSTER_CELERY_RUN_PRIORITY_TAG = some v → pyInt? v = none →
      _get_run_priority ctx = 0) := by
  constructor
  · intro h
    unfold _get_run_priority
    rw [h]
  · intro v hv hp
    simp [_get_run_priority, hv, hp]

/-- Witness for C9: the tag value "not-a-number" resolves to 0. -/
theorem run_priority_defaults_to_zero_witness :
    tagsGet ctxBadRun.tags DAGSTER_CELERY_RUN_PRIORITY_TAG = some "not-a-number" ∧
    pyInt? "not-a-number" = none ∧ _get_run_priority ctxBadRun = 0 :=
  ⟨rfl, by decide,
    (run_priority_defaults_to_zero ctxBadRun).2 "not-a-number" rfl (by decide)⟩

theorem sleep_notin_interruptTrace (o : TickOracle) (s : LoopState) :
    Action.sleep ∉ interruptTrace o s := by
  intro h
  rcases mem_interruptTrace h with ⟨e, he⟩ | he | ⟨hd, he⟩ <;> simp at he

theorem sleep_notin_scanPhase (ctx : RunContext) (plan : List Step) (o : TickOracle)
    (s : LoopState) : Action.sleep ∉ (scanPhase ctx plan o s).trace := by
  intro h
  rcases mem_scanPhase_trace h with ⟨e, he⟩ | ⟨k, p, he⟩ | ⟨k, e, he⟩ | ⟨k, he⟩ <;> simp at he

theorem sleep_notin_planTrace (l : List String) :
    Action.sleep ∉ l.map (fun p => Action.yieldEv (.planEvent p)) := by
  intro h
  obtain ⟨e, he⟩ := mem_planTrace h
  simp at he

/-- C8 (counterexample): a draining tick and a tick with a recorded step
error finish without any sleep — the `continue` at the skip check jumps
over `time.sleep(TICK_SECONDS)`. -/
theorem skip_tick_has_no_sleep :
    Action.sleep ∉ (runTick ctxNone [] oQuiet ⟨[], [], true⟩).trace ∧
    Action.sleep ∉ (runTick ctxNone [] oQuiet ⟨[], [("a", "boom")], false⟩).trace := by
  decide

/-- C8 (amended): a non-fatal tick ends with the tick sleep exactly when
the submission-skip condition did not hold, i.e. when after the tick the
loop is not stopping and no step error is recorded; draining or errored
iterations re-enter the loop immediately without sleeping. -/
theorem sleep_iff_not_skipped (ctx : RunContext) (plan : List Step) (o : TickOracle)
    (s s2 : LoopState) (tr : List Action) (h : runTick ctx plan o s = .ok s2 tr) :
    (Action.sleep ∈ tr ↔ (s2.stopping = false ∧ s2.stepErrors = [])) := by
  unfold runTick at h
  split at h
  · exact TickOut.noConfusion h
  · rename_i s2' tr2 heq
    split at h
    · rename_i hskip
      injection h with h1 h2
      subst h1
      subst h2
      constructor
      · intro hm
        rcases List.mem_append.mp hm with hm | hm
        · rcases List.mem_append.mp hm with hm | hm
          · exact absurd hm (sleep_notin_interruptTrace o s)
          · have hmem : Action.sleep ∈ (scanPhase ctx plan o (interruptState o s)).trace := by
              rw [heq]
              exact hm
            exact absurd hmem (sleep_notin_scanPhase ctx plan o (interruptState o s))
        · exact absurd hm (sleep_notin_planTrace o.planEvents)
      · rintro ⟨hstop, herr⟩
        unfold skipCondition at hskip
        rw [hstop, herr] at hskip
        simp at hskip
    · rename_i hskip
      split at h
      · exact TickOut.noConfusion h
      · rename_i s3 tr4 hsub
        injection h with h1 h2
        subst h1
        subst h2
        have hf := submitPhase_ok_fields hsub
        have hsc : skipCondition s2' = false := by
          cases hq : skipCondition s2'
          · rfl
          · exact absurd hq hskip
        unfold skipCondition at hsc
        have hstop : s2'.stopping = false := by
          cases hq : s2'.stopping
          · rfl
          · rw [hq] at hsc
            simp at hsc
        have herr : s2'.stepErrors = [] := by
          rcases hq : s2'.stepErrors.isEmpty with _ | _
          · rw [hq] at hsc
            simp at hsc
          · exact List.isEmpty_iff.mp hq
        refine ⟨fun _ => ⟨hf.1.trans hstop, hf.2.trans herr⟩, fun _ => ?_⟩
        exact List.mem_append.mpr (Or.inr (List.mem_singleton.mpr rfl))

/-- Witness for C8 (amended): a quiet tick from the initial state ends
with the sleep. -/
theorem sleep_iff_not_skipped_witness :
    Action.sleep ∈ (([] : List Action) ++ [] ++ [] ++ [] ++ [Action.sleep]) ∧
    runTick ctxNone [] oQuiet initState =
      .ok initState ([] ++ [] ++ [] ++ [] ++ [Action.sleep]) :=
  ⟨(sleep_iff_not_skipped ctxNone [] oQuiet initState initState
      ([] ++ [] ++ [] ++ [] ++ [Action.sleep]) rfl).mpr ⟨rfl, rfl⟩, rfl⟩

/-! ### Which traces can carry a step-error recording -/

theorem record_notin_eventsTrace (k2 : String) (evs : List String) (k e : String) :
    Action.recordError k e ∉ eventsTrace k2 evs := by
  intro h
  rcases mem_eventsTrace h with ⟨p, he⟩ | ⟨p, he⟩ <;> simp at he

theorem record_notin_interruptTrace (o : TickOracle) (s : LoopState) (k e : String) :
    Action.recordError k e ∉ interruptTrace o s := by
  intro h
  rcases mem_interruptTrace h with ⟨ev, he⟩ | he | ⟨hd, he⟩ <;> simp at he

theorem record_notin_planTrace (l : List String) (k e : String) :
    Action.recordError k e ∉ l.map (fun p => Action.yieldEv (.planEvent p)) := by
  intro h
  obtain ⟨ev, he⟩ := mem_planTrace h
  simp at he

theorem record_notin_popGo (pops : List String) (sr : List (String × Nat)) (k e : String) :
    Action.recordError k e ∉ (popGo pops sr).2 := by
  intro h
  obtain ⟨k2, he⟩ := mem_popGo_trace h
  simp at he

theorem record_notin_submitGo (ctx : RunContext) (o : TickOracle) (steps : List Step)
    (sr : List (String × Nat)) (k e : String) :
    Action.recordError k e ∉ (submitGo ctx o steps sr).trace := by
  intro h
  rcases mem_submitGo_trace h with ⟨ev, he⟩ | ⟨k2, he⟩ <;> simp at he

theorem record_mem_append_left {l1 l2 : List Action} {k e : String}
    (h1 : ∀ k e, Action.recordError k e ∉ l1) :
    (Action.recordError k e ∈ l1 ++ l2 ↔ Action.recordError k e ∈ l2) := by
  rw [List.mem_append]
  constructor
  · rintro (h | h)
    · exact absurd h (h1 k e)
    · exact h
  · exact Or.inr

theorem record_mem_append_right {l1 l2 : List Action} {k e : String}
    (h2 : ∀ k e, Action.recordError k e ∉ l2) :
    (Action.recordError k e ∈ l1 ++ l2 ↔ Action.recordError k e ∈ l1) := by
  rw [List.mem_append]
  constructor
  · rintro (h | h)
    · exact h
    · exact absurd h (h2 k e)
  · exact Or.inl

/-- The scan loop only ever adds to `step_errors`: every entry of the
output either was present already or corresponds to a recording in the
scan trace, and a key is present in the output exactly when it was
present before or was recorded during the scan. -/
theorem scanGo_errors (plan : List Step) (o : TickOracle) :
    ∀ (items : List (String × Nat)) (errs : List (String × String)) (pops : List String)
      (errs2 : List (String × String)) (pops2 : List String) (tr : List Action),
      scanGo plan o items errs pops = .ok (errs2, pops2) tr →
      (∀ k e, (k, e) ∈ errs2 → (k, e) ∈ errs ∨ Action.recordError k e ∈ tr) ∧
      (∀ k, (∃ e, (k, e) ∈ errs2) ↔ (∃ e, (k, e) ∈ errs) ∨ ∃ e, Action.recordError k e ∈ tr) := by
  intro items
  induction items with
  | nil =>
    intro errs pops errs2 pops2 tr h
    injection h with h1 h2
    injection h1 with h3 h4
    subst h3
    subst h2
    refine ⟨fun k e he => Or.inl he, fun k => ?_⟩
    simp
  | cons q rest ih =>
    intro errs pops errs2 pops2 tr h
    obtain ⟨k2, hd⟩ := q
    simp only [scanGo] at h
    split at h
    · split at h
      · rename_i evs hfx
        obtain ⟨tr3, hmain, htr⟩ := withPre_eq_ok h
        subst htr
        obtain ⟨ha, hb⟩ := ih errs (pops ++ [k2]) errs2 pops2 tr3 hmain
        refine ⟨fun k e he => ?_, fun k => ?_⟩
        · rcases ha k e he with he2 | he2
          · exact Or.inl he2
          · exact Or.inr (List.mem_append.mpr (Or.inr he2))
        · rw [hb k]
          refine or_congr Iff.rfl (exists_congr fun e => ?_)
          exact (record_mem_append_left (record_notin_eventsTrace k2 evs)).symm
      · split at h
        · exact TickOut.noConfusion h
        · obtain ⟨tr3, hmain, htr⟩ := withPre_eq_ok h
          subst htr
          obtain ⟨ha, hb⟩ := ih errs (pops ++ [k2]) errs2 pops2 tr3 hmain
          refine ⟨fun k e he => ?_, fun k => ?_⟩
          · rcases ha k e he with he2 | he2
            · exact Or.inl he2
            · exact Or.inr (List.mem_append.mpr (Or.inr he2))
          · rw [hb k]
            refine or_congr Iff.rfl (exists_congr fun e => ?_)
            refine (record_mem_append_left fun k3 e3 h3 => ?_).symm
            rw [List.mem_singleton] at h3
            simp at h3
      · rename_i e2 hfx
        obtain ⟨tr3, hmain, htr⟩ := withPre_eq_ok h
        subst htr
        obtain ⟨ha, hb⟩ := ih (dictSet errs k2 e2) (pops ++ [k2]) errs2 pops2 tr3 hmain
        refine ⟨fun k e he => ?_, fun k => ?_⟩
        · rcases ha k e he with he2 | he2
          · rcases mem_dictSet_elim he2 with he3 | ⟨rfl, rfl⟩
            · exact Or.inl he3
            · exact Or.inr (List.mem_cons_self _ _)
          · exact Or.inr (List.mem_cons_of_mem _ he2)
        · rw [hb k, exists_mem_dictSet]
          constructor
          · rintro ((rfl | h1) | ⟨e, h2⟩)
            · exact Or.inr ⟨e2, List.mem_cons_self _ _⟩
            · exact Or.inl h1
            · exact Or.inr ⟨e, List.mem_cons_of_mem _ h2⟩
          · rintro (h1 | ⟨e, h2⟩)
            · exact Or.inl (Or.inr h1)
            · rcases List.mem_cons.mp h2 with h3 | h3
              · injection h3 with h4 h5
                exact Or.inl (Or.inl h4)
              · exact Or.inr ⟨e, h3⟩
    · exact ih errs pops errs2 pops2 tr h

/-- Lift of `scanGo_errors` to the whole scan phase. -/
theorem scanPhase_ok_errors {ctx : RunContext} {plan : List Step} {o : TickOracle}
    {s s2 : LoopState} {tr : List Action} (h : scanPhase ctx plan o s = .ok s2 tr) :
    (∀ k e, (k, e) ∈ s2.stepErrors → (k, e) ∈ s.stepErrors ∨ Action.recordError k e ∈ tr) ∧
    (∀ k, (∃ e, (k, e) ∈ s2.stepErrors) ↔
      (∃ e, (k, e) ∈ s.stepErrors) ∨ ∃ e, Action.recordError k e ∈ tr) := by
  unfold scanPhase at h
  split at h
  · rcases hg : scanGo plan o (scanSorted ctx plan s.stepResults) s.stepErrors [] with
      _ | _
    · rename_i pr trS
      rw [hg] at h
      obtain ⟨errs, pops⟩ := pr
      dsimp only [] at h
      injection h with h1 h2
      subst h2
      obtain ⟨ha, hb⟩ := scanGo_errors plan o _ _ _ _ _ _ hg
      have hse : s2.stepErrors = errs := by rw [← h1]
      refine ⟨fun k e he => ?_, fun k => ?_⟩
      · rw [hse] at he
        rcases ha k e he with he2 | he2
        · exact Or.inl he2
        · exact Or.inr ((record_mem_append_right (record_notin_popGo _ _)).mpr he2)
      · rw [hse, hb k]
        refine or_congr Iff.rfl (exists_congr fun e => ?_)
        exact (record_mem_append_right (record_notin_popGo _ _)).symm
    · rename_i e2 trS
      rw [hg] at h
      exact TickOut.noConfusion h
  · exact TickOut.noConfusion h

/-- Lift of the step-error invariant to a whole non-fatal tick. -/
theorem runTick_ok_errors {ctx : RunContext} {plan : List Step} {o : TickOracle}
    {s s2 : LoopState} {tr : List Action} (h : runTick ctx plan o s = .ok s2 tr) :
    (∀ k e, (k, e) ∈ s2.stepErrors → (k, e) ∈ s.stepErrors ∨ Action.recordError k e ∈ tr) ∧
    (∀ k, (∃ e, (k, e) ∈ s2.stepErrors) ↔
      (∃ e, (k, e) ∈ s.stepErrors) ∨ ∃ e, Action.recordError k e ∈ tr) := by
  unfold runTick at h
  rcases hsc : scanPhase ctx plan o (interruptState o s) with _ | _
  · rename_i s2' tr2
    rw [hsc] at h
    dsimp only [] at h
    obtain ⟨ha, hb⟩ := scanPhase_ok_errors hsc
    rw [interruptState_stepErrors] at ha hb
    split at h
    · injection h with h1 h2
      subst h1
      subst h2
      refine ⟨fun k e he => ?_, fun k => ?_⟩
      · rcases ha k e he with he2 | he2
        · exact Or.inl he2
        · refine Or.inr ?_
          rw [record_mem_append_right (record_notin_planTrace _),
            record_mem_append_left (record_notin_interruptTrace _ _)]
          exact he2
      · rw [hb k]
        refine or_congr Iff.rfl (exists_congr fun e => ?_)
        rw [record_mem_append_right (record_notin_planTrace _),
          record_mem_append_left (record_notin_interruptTrace _ _)]
    · rcases hsub : submitPhase ctx o s2' with _ | _
      · rename_i s3 tr4
        rw [hsub] at h
        dsimp only [] at h
        injection h with h1 h2
        subst h1
        subst h2
        have htr4 : ∀ k e, Action.recordError k e ∉ tr4 := by
          intro k e hk
          have : Action.recordError k e ∈ (submitPhase ctx o s2').trace := by
            rw [hsub]
            exact hk
          unfold submitPhase at this
          split at this
          · rcases hg2 : submitGo ctx o (submissionOrder ctx o.readySteps) s2'.stepResults
              with _ | _
            · rename_i sr2 tr5
              rw [hg2] at this
              dsimp only [TickOut.trace] at this
              have : Action.recordError k e ∈
                  (submitGo ctx o (submissionOrder ctx o.readySteps) s2'.stepResults).trace := by
                rw [hg2]
                exact this
              exact record_notin_submitGo _ _ _ _ _ _ this
            · rename_i e2 tr5
              rw [hg2] at this
              dsimp only [TickOut.trace] at this
              have : Action.recordError k e ∈
                  (submitGo ctx o (submissionOrder ctx o.readySteps) s2'.stepResults).trace := by
                rw [hg2]
                exact this
              exact record_notin_submitGo _ _ _ _ _ _ this
          · simp [TickOut.trace] at this
        have hs3 : s3.stepErrors = s2'.stepErrors := (submitPhase_ok_fields hsub).2
        refine ⟨fun k e he => ?_, fun k => ?_⟩
        · rw [hs3] at he
          rcases ha k e he with he2 | he2
          · exact Or.inl he2
          · refine Or.inr ?_
            rw [record_mem_append_right (fun k3 e3 h3 => by
                rw [List.mem_singleton] at h3
                simp at h3),
              record_mem_append_right htr4,
              record_mem_append_right (record_notin_planTrace _),
              record_mem_append_left (record_notin_interruptTrace _ _)]
            exact he2
        · rw [hs3, hb k]
          refine or_congr Iff.rfl (exists_congr fun e => ?_)
          rw [record_mem_append_right (fun k3 e3 h3 => by
              rw [List.mem_singleton] at h3
              simp at h3),
            record_mem_append_right htr4,
            record_mem_append_right (record_notin_planTrace _),
            record_mem_append_left (record_notin_interruptTrace _ _)]
      · rename_i e2 tr4
        rw [hsub] at h
        exact TickOut.noConfusion h
  · rename_i e2 tr2
    rw [hsc] at h
    exact TickOut.noConfusion h

/-- Step errors reported by the aggregate failure of a run started in
state `s` are exactly the initial ones plus those recorded in the trace,
and the aggregate is only raised when they are nonempty. -/
theorem runLoopAux_aggregate (ctx : RunContext) (plan : List Step) (env : Nat → TickOracle) :
    ∀ (fuel i : Nat) (s : LoopState) (errs : List (String × String)) (tr : List Action),
      runLoopAux ctx plan env fuel i s = .aggregateError errs tr →
      errs ≠ [] ∧
      (∀ k e, (k, e) ∈ errs → (k, e) ∈ s.stepErrors ∨ Action.recordError k e ∈ tr) ∧
      (∀ k, (∃ e, (k, e) ∈ errs) ↔
        (∃ e, (k, e) ∈ s.stepErrors) ∨ ∃ e, Action.recordError k e ∈ tr) := by
  intro fuel
  induction fuel with
  | zero =>
    intro i s errs tr h
    exact RunResult.noConfusion h
  | succ fuel ih =>
    intro i s errs tr h
    unfold runLoopAux at h
    split at h
    · rcases htick : runTick ctx plan (env i) s with _ | _
      · rename_i s2 trT
        rw [htick] at h
        dsimp only [] at h
        obtain ⟨tr3, hrest, htr⟩ := runWithPre_eq_aggregate h
        subst htr
        obtain ⟨hne, ha, hb⟩ := ih (i + 1) s2 errs tr3 hrest
        obtain ⟨ta, tb⟩ := runTick_ok_errors htick
        refine ⟨hne, fun k e he => ?_, fun k => ?_⟩
        · rcases ha k e he with he2 | he2
          · rcases ta k e he2 with he3 | he3
            · exact Or.inl he3
            · exact Or.inr (List.mem_append.mpr (Or.inl he3))
          · exact Or.inr (List.mem_append.mpr (Or.inr he2))
        · rw [hb k]
          constructor
          · rintro (⟨e, he⟩ | ⟨e, he⟩)
            · rcases (tb k).mp ⟨e, he⟩ with h1 | ⟨e2, h2⟩
              · exact Or.inl h1
              · exact Or.inr ⟨e2, List.mem_append.mpr (Or.inl h2)⟩
            · exact Or.inr ⟨e, List.mem_append.mpr (Or.inr he)⟩
          · rintro (⟨e, he⟩ | ⟨e, he⟩)
            · exact Or.inl ((tb k).mpr (Or.inl ⟨e, he⟩))
            · rcases List.mem_append.mp he with h1 | h1
              · exact Or.inl ((tb k).mpr (Or.inr ⟨e, h1⟩))
              · exact Or.inr ⟨e, h1⟩
      · rename_i e2 trT
        rw [htick] at h
        exact RunResult.noConfusion h
    · split at h
      · exact RunResult.noConfusion h
      · rename_i hne
        injection h with h1 h2
        subst h1
        subst h2
        refine ⟨fun hcon => hne (by rw [hcon]; rfl), fun k e he => Or.inl he, fun k => ?_⟩
        simp

theorem runWithPre_eq_completed {tr : List Action} {r : RunResult} {tr2 : List Action}
    (h : r.withPre tr = .completed tr2) :
    ∃ tr3, r = .completed tr3 ∧ tr2 = tr ++ tr3 := by
  cases r with
  | completed tr3 =>
    injection h with h1
    exact ⟨tr3, rfl, h1.symm⟩
  | aggregateError errs2 tr3 => exact RunResult.noConfusion h
  | fatalError e tr3 => exact RunResult.noConfusion h
  | outOfFuel tr3 => exact RunResult.noConfusion h

/-- A run that exits normally (without the aggregate raise) started with
no step errors recorded and recorded none along the way: recorded step
errors are never dropped, so they always surface at exit. -/
theorem runLoopAux_completed (ctx : RunContext) (plan : List Step) (env : Nat → TickOracle) :
    ∀ (fuel i : Nat) (s : LoopState) (tr : List Action),
      runLoopAux ctx plan env fuel i s = .completed tr →
      s.stepErrors = [] ∧ ∀ k e, Action.recordError k e ∉ tr := by
  intro fuel
  induction fuel with
  | zero =>
    intro i s tr h
    exact RunResult.noConfusion h
  | succ fuel ih =>
    intro i s tr h
    unfold runLoopAux at h
    split at h
    · rcases htick : runTick ctx plan (env i) s with _ | _
      · rename_i s2 trT
        rw [htick] at h
        dsimp only [] at h
        obtain ⟨tr3, hrest, htr⟩ := runWithPre_eq_completed h
        subst htr
        obtain ⟨hs2, hno3⟩ := ih (i + 1) s2 tr3 hrest
        obtain ⟨ta, tb⟩ := runTick_ok_errors htick
        have hkey : ∀ k, ¬ ((∃ e, (k, e) ∈ s.stepErrors) ∨
            ∃ e, Action.recordError k e ∈ trT) := by
          intro k hk
          obtain ⟨e, he⟩ := (tb k).mpr hk
          rw [hs2] at he
          exact List.not_mem_nil _ he
        refine ⟨?_, ?_⟩
        · rw [List.eq_nil_iff_forall_not_mem]
          intro p hp
          exact hkey p.1 (Or.inl ⟨p.2, hp⟩)
        · intro k e hk
          rcases List.mem_append.mp hk with hm | hm
          · exact hkey k (Or.inr ⟨e, hm⟩)
          · exact hno3 k e hm
      · rename_i e2 trT
        rw [htick] at h
        exact RunResult.noConfusion h
    · split at h
      · rename_i hemp
        injection h with h1
        subst h1
        exact ⟨List.isEmpty_iff.mp hemp, fun k e hk => List.not_mem_nil _ hk⟩
      · exact RunResult.noConfusion h

/-- C4: a run that exits normally never recorded a step error, so a run
that recorded at least one step error and did not abort on a fatal
exception (nor merely ran out of observation fuel) must end in the
aggregate failure; and whenever the aggregate failure is raised, its
error list is nonempty and enumerates exactly the step keys for which a
step error was recorded, each with its recorded description — hence no
aggregate failure when no step error was recorded. -/
theorem aggregate_error_enumerates_all_step_errors (ctx : RunContext) (plan : List Step)
    (env : Nat → TickOracle) (fuel : Nat) :
    (∀ tr, runLoop ctx plan env fuel = .completed tr →
      ∀ k e, Action.recordError k e ∉ tr) ∧
    ((∃ k e, Action.recordError k e ∈ (runLoop ctx plan env fuel).trace) →
      (∀ e tr, runLoop ctx plan env fuel ≠ .fatalError e tr) →
      (∀ tr, runLoop ctx plan env fuel ≠ .outOfFuel tr) →
      ∃ errs tr, runLoop ctx plan env fuel = .aggregateError errs tr) ∧
    (∀ errs tr, runLoop ctx plan env fuel = .aggregateError errs tr →
      errs ≠ [] ∧
      (∀ k, (∃ e, (k, e) ∈ errs) ↔ ∃ e, Action.recordError k e ∈ tr) ∧
      (∀ k e, (k, e) ∈ errs → Action.recordError k e ∈ tr)) := by
  have hcomp : ∀ tr, runLoop ctx plan env fuel = .completed tr →
      ∀ k e, Action.recordError k e ∉ tr :=
    fun tr htr => (runLoopAux_completed ctx plan env fuel 0 initState tr htr).2
  refine ⟨hcomp, ?_, ?_⟩
  · intro hrec hfatal hfuel
    rcases hr : runLoop ctx plan env fuel with tr | ⟨errs, tr⟩ | ⟨e, tr⟩ | tr
    · obtain ⟨k, e, hk⟩ := hrec
      rw [hr] at hk
      exact absurd hk (hcomp tr hr k e)
    · exact ⟨errs, tr, rfl⟩
    · exact absurd hr (hfatal e tr)
    · exact absurd hr (hfuel tr)
  · intro errs tr h
    obtain ⟨hne, ha, hb⟩ := runLoopAux_aggregate ctx plan env fuel 0 initState errs tr h
    refine ⟨hne, fun k => ?_, fun k e he => ?_⟩
    · rw [hb k]
      simp [initState]
    · rcases ha k e he with he2 | he2
      · simp [initState] at he2
      · exact he2

/-- Witness for C4: in the run where step `a`'s remote execution fails,
a step error is recorded, the run is neither fatal nor out of fuel, and
the theorem yields the aggregate failure, which names exactly step `a`
with its error. -/
theorem aggregate_error_enumerates_all_step_errors_witness :
    runLoop ctxNone [stA] envAgg 3 = .aggregateError [("a", "boom")]
      [Action.yieldEv (.submittingNotice "a" "dagster"), Action.adapterSubmit "a",
        Action.sleep, Action.recordError "a" "boom", Action.verifyComplete "a"] ∧
    (∃ errs tr, runLoop ctxNone [stA] envAgg 3 = .aggregateError errs tr) ∧
    Action.recordError "a" "boom" ∈
      [Action.yieldEv (.submittingNotice "a" "dagster"), Action.adapterSubmit "a",
        Action.sleep, Action.recordError "a" "boom", Action.verifyComplete "a"] := by
  have heq : runLoop ctxNone [stA] envAgg 3 = .aggregateError [("a", "boom")]
      [Action.yieldEv (.submittingNotice "a" "dagster"), Action.adapterSubmit "a",
        Action.sleep, Action.recordError "a" "boom", Action.verifyComplete "a"] := rfl
  refine ⟨heq, ?_, ?_⟩
  · refine (aggregate_error_enumerates_all_step_errors ctxNone [stA] envAgg 3).2.1
      ⟨"a", "boom", ?_⟩ ?_ ?_
    · rw [heq]
      simp [RunResult.trace]
    · intro e tr h
      rw [heq] at h
      exact RunResult.noConfusion h
    · intro tr h
      rw [heq] at h
      exact RunResult.noConfusion h
  · exact (aggregate_error_enumerates_all_step_errors ctxNone [stA] envAgg 3).2.2
      [("a", "boom")] _ heq |>.2.2 "a" "boom" (List.mem_singleton.mpr rfl)

/-- Through a prefix of successful submissions, a raising submission
turns the whole submit loop fatal with the same exception, its last
action the fatal engine-error notice, and exactly the prefix plus the
failing call reached the adapter. -/
theorem submitGo_fatal_aux (ctx : RunContext) (o : TickOracle) (st : Step) (e : String)
    (hp : (_get_step_priority ctx st).isSome = true) (hfail : o.submit st = .error e) :
    ∀ (l₁ l₂ : List Step) (sr : List (String × Nat)),
      (∀ st2 ∈ l₁, (_get_step_priority ctx st2).isSome = true ∧ ∃ hd, o.submit st2 = .ok hd) →
      ∃ tr0, submitGo ctx o (l₁ ++ st :: l₂) sr =
          .fatal e (tr0 ++ [Action.yieldEv (.submissionErrorNotice e)]) ∧
        countSubmits (tr0 ++ [Action.yieldEv (.submissionErrorNotice e)]) = l₁.length + 1 := by
  intro l₁
  induction l₁ with
  | nil =>
    intro l₂ sr _
    obtain ⟨p, hp2⟩ := Option.isSome_iff_exists.mp hp
    refine ⟨[Action.yieldEv (.submittingNotice st.key
        ((tagsGet st.tags DAGSTER_CELERY_QUEUE_TAG).getD task_default_queue)),
      Action.adapterSubmit st.key], ?_, ?_⟩
    · simp only [List.nil_append, submitGo, hp2, hfail]
      rfl
    · simp [countSubmits, List.countP_cons]
  | cons st2 rest ih =>
    intro l₂ sr hpre
    obtain ⟨hp2, hd, hsub⟩ := hpre st2 (List.mem_cons_self _ _)
    obtain ⟨p2, hp2e⟩ := Option.isSome_iff_exists.mp hp2
    obtain ⟨tr0, heq, hcount⟩ := ih l₂ (dictSet sr st2.key hd)
      (fun st3 h3 => hpre st3 (List.mem_cons_of_mem _ h3))
    refine ⟨[Action.yieldEv (.submittingNotice st2.key
        ((tagsGet st2.tags DAGSTER_CELERY_QUEUE_TAG).getD task_default_queue)),
      Action.adapterSubmit st2.key] ++ tr0, ?_, ?_⟩
    · rw [List.cons_append]
      simp only [submitGo, hp2e, hsub]
      rw [heq]
      simp [TickOut.withPre, List.append_assoc]
    · rw [List.append_assoc, countSubmits_append, hcount]
      simp [countSubmits, List.countP_cons, List.length_cons]
      omega

/-- C5: a raise from `step_execution_fn` is fatal: the loop yields the
fatal engine-error notice as its final action and re-raises the same
exception; steps after the raising one are never submitted (the adapter
is reached exactly `l₁.length + 1` times), and a fatal tick makes the
loop return at once with that exception, with no further tick run. -/
theorem submission_raise_is_fatal (ctx : RunContext) (o : TickOracle)
    (l₁ l₂ : List Step) (st : Step) (e : String) (sr : List (String × Nat))
    (hpre : ∀ st2 ∈ l₁,
      (_get_step_priority ctx st2).isSome = true ∧ ∃ hd, o.submit st2 = .ok hd)
    (hp : (_get_step_priority ctx st).isSome = true)
    (hfail : o.submit st = .error e) :
    (∃ tr0, submitGo ctx o (l₁ ++ st :: l₂) sr =
        .fatal e (tr0 ++ [Action.yieldEv (.submissionErrorNotice e)]) ∧
      countSubmits (tr0 ++ [Action.yieldEv (.submissionErrorNotice e)]) = l₁.length + 1) ∧
    (∀ (plan : List Step) (env : Nat → TickOracle) (fuel i : Nat) (s : LoopState)
        (err : String) (tr2 : List Action),
      loopContinues (env i).isCompleteBefore s.stopping s.stepResults = true →
      runTick ctx plan (env i) s = .fatal err tr2 →
      runLoopAux ctx plan env (fuel + 1) i s = .fatalError err tr2) := by
  refine ⟨submitGo_fatal_aux ctx o st e hp hfail l₁ l₂ sr hpre, ?_⟩
  intro plan env fuel i s err tr2 hg ht
  simp only [runLoopAux, hg, if_true, ht]

/-- Witness for C5: a single ready step whose submission raises. -/
theorem submission_raise_is_fatal_witness :
    ∃ tr0, submitGo ctxNone oFailSubmit [stA] [] =
        .fatal "broker down" (tr0 ++ [Action.yieldEv (.submissionErrorNotice "broker down")]) ∧
      countSubmits (tr0 ++ [Action.yieldEv (.submissionErrorNotice "broker down")]) = 1 :=
  (submission_raise_is_fatal ctxNone oFailSubmit [] [] stA "broker down" []
    (by simp) rfl rfl).1

/-- Scanning handles none of which belongs to step `k` completes
normally (given that revoked fetches can resolve their step in the
plan), preserves any error recorded for `k`, records nothing for `k`
and feeds the tracker nothing attributed to `k`. -/
theorem scanGo_avoid (plan : List Step) (o : TickOracle) (k : String) :
    ∀ (items : List (String × Nat)) (errs : List (String × String)) (pops : List String),
      (∀ p ∈ items, p.1 ≠ k) →
      (∀ p ∈ items, o.ready p.2 = true → o.fetch p.2 = .revoked →
        (get_step_by_key plan p.1).isSome = true) →
      ∃ errs2 pops2 tr, scanGo plan o items errs pops = .ok (errs2, pops2) tr ∧
        (∀ e, (k, e) ∈ errs → (k, e) ∈ errs2) ∧
        countRecordsFor k tr = 0 ∧
        ∀ p, Action.handleEvent k p ∉ tr := by
  intro items
  induction items with
  | nil =>
    intro errs pops _ _
    exact ⟨errs, pops, [], rfl, fun e he => he, rfl, fun p h => List.not_mem_nil _ h⟩
  | cons q rest ih =>
    intro errs pops hk hrev
    obtain ⟨k2, hd⟩ := q
    have hk2 : k2 ≠ k := hk (k2, hd) (List.mem_cons_self _ _)
    have hkr : ∀ p ∈ rest, p.1 ≠ k := fun p hp => hk p (List.mem_cons_of_mem _ hp)
    have hrr : ∀ p ∈ rest, o.ready p.2 = true → o.fetch p.2 = .revoked →
        (get_step_by_key plan p.1).isSome = true :=
      fun p hp => hrev p (List.mem_cons_of_mem _ hp)
    by_cases hready : o.ready hd = true
    · rcases hf : o.fetch hd with evs | _ | e2
      · obtain ⟨errs2, pops2, tr, heq, hpres, hcount, hnh⟩ := ih errs (pops ++ [k2]) hkr hrr
        refine ⟨errs2, pops2, eventsTrace k2 evs ++ tr, ?_, hpres, ?_, ?_⟩
        · simp only [scanGo, hready, if_true, hf]
          rw [heq]
          rfl
        · rw [countRecordsFor, List.countP_append]
          have h1 : countRecordsFor k (eventsTrace k2 evs) = 0 := by
            rw [countRecordsFor, List.countP_eq_zero]
            intro a ha
            rcases mem_eventsTrace ha with ⟨p, rfl⟩ | ⟨p, rfl⟩ <;> simp
          rw [countRecordsFor] at h1 hcount
          rw [h1, hcount]
        · intro p hp2
          rcases List.mem_append.mp hp2 with hm | hm
          · rcases mem_eventsTrace hm with ⟨p2, he⟩ | ⟨p2, he⟩
            · simp at he
            · injection he with h1 h2
              exact hk2 h1.symm
          · exact hnh p hm
      · have hsome := hrev (k2, hd) (List.mem_cons_self _ _) hready hf
        obtain ⟨st2, hst2⟩ := Option.isSome_iff_exists.mp hsome
        obtain ⟨errs2, pops2, tr, heq, hpres, hcount, hnh⟩ := ih errs (pops ++ [k2]) hkr hrr
        refine ⟨errs2, pops2, Action.yieldEv (.revokedNotice k2) :: tr, ?_, hpres, ?_, ?_⟩
        · simp only [scanGo, hready, if_true, hf, hst2]
          rw [heq]
          rfl
        · rw [countRecordsFor, List.countP_cons]
          rw [countRecordsFor] at hcount
          simp [hcount]
        · intro p hp2
          rcases List.mem_cons.mp hp2 with he | hm
          · simp at he
          · exact hnh p hm
      · obtain ⟨errs2, pops2, tr, heq, hpres, hcount, hnh⟩ :=
          ih (dictSet errs k2 e2) (pops ++ [k2]) hkr hrr
        refine ⟨errs2, pops2, Action.recordError k2 e2 :: tr, ?_, ?_, ?_, ?_⟩
        · simp only [scanGo, hready, if_true, hf]
          rw [heq]
          rfl
        · exact fun e he => hpres e (mem_dictSet_of_ne (Ne.symm hk2) he)
        · rw [countRecordsFor, List.countP_cons]
          rw [countRecordsFor] at hcount
          have : (k2 == k) = false := by
            simp [hk2]
          simp [hcount, this]
        · intro p hp2
          rcases List.mem_cons.mp hp2 with he | hm
          · simp at he
          · exact hnh p hm
    · have hready2 : o.ready hd = false := by
        cases hq : o.ready hd
        · rfl
        · exact absurd hq hready
      obtain ⟨errs2, pops2, tr, heq, hpres, hcount, hnh⟩ := ih errs pops hkr hrr
      refine ⟨errs2, pops2, tr, ?_, hpres, hcount, hnh⟩
      simp only [scanGo, hready2]
      exact heq

/-- C6: a ready handle whose fetch raises a non-revocation exception
makes the scan record exactly one step error keyed by that step's key,
the scan does not re-raise (it completes normally), and no completion
event for that step is fed to the tracker in that tick. -/
theorem fetch_failure_records_single_error (plan : List Step) (o : TickOracle)
    (l₁ l₂ : List (String × Nat)) (k : String) (hd : Nat) (err : String)
    (errs : List (String × String)) (pops : List String)
    (hready : o.ready hd = true) (hfetch : o.fetch hd = .failed err)
    (hk1 : ∀ p ∈ l₁, p.1 ≠ k) (hk2 : ∀ p ∈ l₂, p.1 ≠ k)
    (hrev : ∀ p ∈ l₁ ++ l₂, o.ready p.2 = true → o.fetch p.2 = .revoked →
      (get_step_by_key plan p.1).isSome = true) :
    ∃ errs2 pops2 tr, scanGo plan o (l₁ ++ (k, hd) :: l₂) errs pops = .ok (errs2, pops2) tr ∧
      (k, err) ∈ errs2 ∧ countRecordsFor k tr = 1 ∧
      ∀ p, Action.handleEvent k p ∉ tr := by
  induction l₁ generalizing errs pops with
  | nil =>
    obtain ⟨errs2, pops2, tr, heq, hpres, hcount, hnh⟩ :=
      scanGo_avoid plan o k l₂ (dictSet errs k err) (pops ++ [k]) hk2
        (fun p hp => hrev p (List.mem_append.mpr (Or.inr hp)))
    refine ⟨errs2, pops2, Action.recordError k err :: tr, ?_, ?_, ?_, ?_⟩
    · simp only [List.nil_append, scanGo, hready, if_true, hfetch]
      rw [heq]
      rfl
    · exact hpres err (self_mem_dictSet errs k err)
    · rw [countRecordsFor, List.countP_cons]
      rw [countRecordsFor] at hcount
      simp [hcount]
    · intro p hp2
      rcases List.mem_cons.mp hp2 with he | hm
      · simp at he
      · exact hnh p hm
  | cons q rest ih =>
    obtain ⟨k2, hd2⟩ := q
    have hq2 : k2 ≠ k := hk1 (k2, hd2) (List.mem_cons_self _ _)
    have hk1r : ∀ p ∈ rest, p.1 ≠ k := fun p hp => hk1 p (List.mem_cons_of_mem _ hp)
    have hrevr : ∀ p ∈ rest ++ l₂, o.ready p.2 = true → o.fetch p.2 = .revoked →
        (get_step_by_key plan p.1).isSome = true := by
      intro p hp
      refine hrev p ?_
      rcases List.mem_append.mp hp with hm | hm
      · exact List.mem_append.mpr (Or.inl (List.mem_cons_of_mem _ hm))
      · exact List.mem_append.mpr (Or.inr hm)
    by_cases hready2 : o.ready hd2 = true
    · rcases hf : o.fetch hd2 with evs | _ | e2
      · obtain ⟨errs2, pops2, tr, heq, hmem, hcount, hnh⟩ := ih errs (pops ++ [k2]) hk1r hrevr
        refine ⟨errs2, pops2, eventsTrace k2 evs ++ tr, ?_, hmem, ?_, ?_⟩
        · simp only [List.cons_append, List.append_eq, scanGo, hready2, if_true, hf]
          rw [heq]
          rfl
        · rw [countRecordsFor, List.countP_append]
          have h1 : countRecordsFor k (eventsTrace k2 evs) = 0 := by
            rw [countRecordsFor, List.countP_eq_zero]
            intro a ha
            rcases mem_eventsTrace ha with ⟨p, rfl⟩ | ⟨p, rfl⟩ <;> simp
          rw [countRecordsFor] at h1 hcount
          rw [h1, hcount]
        · intro p hp2
          rcases List.mem_append.mp hp2 with hm | hm
          · rcases mem_eventsTrace hm with ⟨p2, he⟩ | ⟨p2, he⟩
            · simp at he
            · injection he with h1 h2
              exact hq2 h1.symm
          · exact hnh p hm
      · have hsome := hrev (k2, hd2) (List.mem_append.mpr (Or.inl (List.mem_cons_self _ _)))
          hready2 hf
        obtain ⟨st2, hst2⟩ := Option.isSome_iff_exists.mp hsome
        obtain ⟨errs2, pops2, tr, heq, hmem, hcount, hnh⟩ := ih errs (pops ++ [k2]) hk1r hrevr
        refine ⟨errs2, pops2, Action.yieldEv (.revokedNotice k2) :: tr, ?_, hmem, ?_, ?_⟩
        · simp only [List.cons_append, List.append_eq, scanGo, hready2, if_true, hf, hst2]
          rw [heq]
          rfl
        · rw [countRecordsFor, List.countP_cons]
          rw [countRecordsFor] at hcount
          simp [hcount]
        · intro p hp2
          rcases List.mem_cons.mp hp2 with he | hm
          · simp at he
          · exact hnh p hm
      · obtain ⟨errs2, pops2, tr, heq, hmem, hcount, hnh⟩ :=
          ih (dictSet errs k2 e2) (pops ++ [k2]) hk1r hrevr
        refine ⟨errs2, pops2, Action.recordError k2 e2 :: tr, ?_, hmem, ?_, ?_⟩
        · simp only [List.cons_append, List.append_eq, scanGo, hready2, if_true, hf]
          rw [heq]
          rfl
        · rw [countRecordsFor, List.countP_cons]
          rw [countRecordsFor] at hcount
          have h2 : (k2 == k) = false := by
            simp [hq2]
          simp [hcount, h2]
        · intro p hp2
          rcases List.mem_cons.mp hp2 with he | hm
          · simp at he
          · exact hnh p hm
    · have hready3 : o.ready hd2 = false := by
        cases hq : o.ready hd2
        · rfl
        · exact absurd hq hready2
      obtain ⟨errs2, pops2, tr, heq, hmem, hcount, hnh⟩ := ih errs pops hk1r hrevr
      refine ⟨errs2, pops2, tr, ?_, hmem, hcount, hnh⟩
      simp only [List.cons_append, List.append_eq, scanGo, hready3]
      exact heq

/-- Witness for C6: one ready handle for step `a`, remote failure
"boom": exactly one recorded error, no tracker feed for `a`. -/
theorem fetch_failure_records_single_error_witness :
    ∃ errs2 pops2 tr, scanGo [] oFailFetch ([] ++ ("a", 0) :: []) [] [] =
        .ok (errs2, pops2) tr ∧
      ("a", "boom") ∈ errs2 ∧ countRecordsFor "a" tr = 1 ∧
      ∀ p, Action.handleEvent "a" p ∉ tr :=
  fetch_failure_records_single_error [] oFailFetch [] [] "a" 0 "boom" [] [] rfl rfl
    (by simp) (by simp) (by simp)

/-- C10: unlike the guarded run-level tag, an unparseable step-level
priority tag makes the integer conversion raise: both step-priority
functions propagate the failure instead of defaulting, and when such a
step becomes ready the tick turns fatal — the run aborts with the
`ValueError`, nothing having been submitted — while the very same value
in the run-level tag resolves to priority 0. -/
theorem unparseable_step_priority_aborts_run (ctx : RunContext) (plan : List Step)
    (env : Nat → TickOracle) (fuel : Nat) (st : Step) (v : String)
    (hcomp : (env 0).isCompleteBefore = false) (hint : (env 0).interrupt = false)
    (hready : st ∈ (env 0).readySteps)
    (htag : tagsGet st.tags DAGSTER_CELERY_STEP_PRIORITY_TAG = some v)
    (hbad : pyInt? v = none) :
    _get_step_priority ctx st = none ∧ priority_for_step ctx st = none ∧
    (∃ tr, runLoop ctx plan env (fuel + 1) = .fatalError "ValueError" tr ∧
      countSubmits tr = 0) ∧
    _get_run_priority ⟨[(DAGSTER_CELERY_RUN_PRIORITY_TAG, v)]⟩ = 0 := by
  have hsp : stepPriorityInt st = none := by
    simp [stepPriorityInt, htag, hbad]
  have hgetp : _get_step_priority ctx st = none := by
    simp [_get_step_priority, hsp]
  have hpfs : priority_for_step ctx st = none := by
    simp [priority_for_step, hsp]
  refine ⟨hgetp, hpfs, ?_, ?_⟩
  · have hko : readyKeysOk ctx (env 0).readySteps = false := by
      cases hq : readyKeysOk ctx (env 0).readySteps
      · rfl
      · have := List.all_eq_true.mp hq st hready
        rw [hpfs] at this
        simp at this
    have hsub : submitPhase ctx (env 0) initState = .fatal "ValueError" [] := by
      unfold submitPhase
      rw [hko]
      rfl
    have hi : interruptState (env 0) initState = initState := by
      simp [interruptState, hint]
    have hscan : scanPhase ctx plan (env 0) (interruptState (env 0) initState) =
        .ok initState [] := by
      rw [hi]
      rfl
    have hiTr : interruptTrace (env 0) initState = [] := by
      simp [interruptTrace, hint]
    have htick : runTick ctx plan (env 0) initState = .fatal "ValueError"
        ((env 0).planEvents.map (fun p => Action.yieldEv (.planEvent p))) := by
      simp only [runTick, hscan]
      rw [show skipCondition initState = false from rfl, if_neg (by simp)]
      simp [hsub, hiTr]
    have hguard : loopContinues (env 0).isCompleteBefore initState.stopping
        initState.stepResults = true := by
      rw [hcomp]
      rfl
    refine ⟨(env 0).planEvents.map (fun p => Action.yieldEv (.planEvent p)), ?_,
      countSubmits_planTrace _⟩
    rw [runLoop]
    simp only [runLoopAux, hguard, if_true, htick]
  · have ht : tagsGet [(DAGSTER_CELERY_RUN_PRIORITY_TAG, v)]
        DAGSTER_CELERY_RUN_PRIORITY_TAG = some v := by
      simp [tagsGet]
    simp [_get_run_priority, ht, hbad]

/-- Witness for C10: the step tag value "low" cannot be parsed; the run
aborts fatally while the same value as run tag gives priority 0. -/
theorem unparseable_step_priority_aborts_run_witness :
    _get_step_priority ctxNone stBad = none ∧ priority_for_step ctxNone stBad = none ∧
    (∃ tr, runLoop ctxNone [] envBad 1 = .fatalError "ValueError" tr ∧
      countSubmits tr = 0) ∧
    _get_run_priority ⟨[(DAGSTER_CELERY_RUN_PRIORITY_TAG, "low")]⟩ = 0 :=
  unparseable_step_priority_aborts_run ctxNone [] envBad 0 stBad "low" rfl rfl
    (List.mem_singleton.mpr rfl) rfl (by decide)

end CelerySim
